import Mathlib

/-! Shallow embedding of `src/scripts/dependency_version.py`.

The script compiles two multiline regular expressions

  dependencyPattern : `^([a-zA-Z0-9_]*) = \x7b path = "([./a-zA-Z0-9_]*)", version = "([.a-zA-Z0-9_]*)" \x7d`
  versionPattern    : `^version = "([.a-zA-Z0-9_]*)"`

reads the whole file, takes the first capture of `versionPattern.findall`
(an `IndexError`, a subclass of `LookupError`, is raised when there is none),
rewrites every `dependencyPattern` match through `re.sub` with a replacement
that keeps groups 1 and 2 and substitutes the extracted version for group 3,
and writes the result back over the same file.

Both patterns anchor at a line start (`re.MULTILINE`), contain no construct
that can match or cross a newline, so every match lies within a single line
and starts at its first character; and in each pattern every character class
excludes the literal character that follows it, so the backtracking search is
equivalent to deterministic maximal munch on the prefix of each line: take the
longest run of class characters, then require the following literal.  The
embedding below therefore splits the buffer at newline characters, matches
each line's prefix with `matchDep` / `matchVer`, and joins the lines back.
-/

/-- Character class `[a-zA-Z0-9_]` of group 1 (the identifier). -/
def isIdentChar (c : Char) : Bool :=
  c.isAlpha || c.isDigit || c == '_'

/-- Character class `[./a-zA-Z0-9_]` of group 2 (the path). -/
def isPathChar (c : Char) : Bool :=
  isIdentChar c || c == '.' || c == '/'

/-- Character class `[.a-zA-Z0-9_]` of group 3 and of the version capture. -/
def isVerChar (c : Char) : Bool :=
  isIdentChar c || c == '.'

/-- Match a literal fragment of a pattern: `stripLit lit s` returns the
remainder of `s` after the exact prefix `lit`, or `none`. -/
def stripLit : List Char → List Char → Option (List Char)
  | [], s => some s
  | _ :: _, [] => none
  | c :: cs, d :: ds => if c = d then stripLit cs ds else none

/-- The literal ` = \x7b path = "` between groups 1 and 2 of `dependencyPattern`. -/
def litDepMid1 : List Char :=
  [' ', '=', ' ', '{', ' ', 'p', 'a', 't', 'h', ' ', '=', ' ', '"']

/-- The literal `", version = "` between groups 2 and 3 of `dependencyPattern`. -/
def litDepMid2 : List Char :=
  ['"', ',', ' ', 'v', 'e', 'r', 's', 'i', 'o', 'n', ' ', '=', ' ', '"']

/-- The literal `" \x7d` closing `dependencyPattern`. -/
def litDepEnd : List Char :=
  ['"', ' ', '}']

/-- The literal `version = "` opening `versionPattern`. -/
def litVer : List Char :=
  ['v', 'e', 'r', 's', 'i', 'o', 'n', ' ', '=', ' ', '"']

/-- A successful match of `dependencyPattern` on a line: the three captured
groups plus the characters of the line after the matched span. -/
structure DepMatch where
  ident : List Char
  path : List Char
  ver : List Char
  rest : List Char
deriving Repr, DecidableEq

/-- The replacement built by `replace` in the script:
`f-string ident = \x7b path = "path", version = "ver" \x7d`. -/
def renderDep (ident path ver : List Char) : List Char :=
  ident ++ litDepMid1 ++ path ++ litDepMid2 ++ ver ++ litDepEnd

/-- Match `dependencyPattern` against the prefix of one line: group 1 is the
longest run of identifier characters, then the literal up to the path quote,
group 2 the longest run of path characters, then the literal up to the
version quote, group 3 the longest run of version characters, then the
closing literal; whatever follows on the line is `rest`. -/
def matchDep (l : List Char) : Option DepMatch :=
  (stripLit litDepMid1 (l.dropWhile isIdentChar)).bind fun r2 =>
    (stripLit litDepMid2 (r2.dropWhile isPathChar)).bind fun r4 =>
      (stripLit litDepEnd (r4.dropWhile isVerChar)).map fun rest =>
        ⟨l.takeWhile isIdentChar, r2.takeWhile isPathChar,
          r4.takeWhile isVerChar, rest⟩

/-- Match `versionPattern` against the prefix of one line, returning the
captured version value: the literal `version = "`, then the longest run of
version characters, which must be closed by a quote. -/
def matchVer (l : List Char) : Option (List Char) :=
  (stripLit litVer l).bind fun r =>
    match r.dropWhile isVerChar with
    | '"' :: _ => some (r.takeWhile isVerChar)
    | _ => none

/-- One step of `re.sub(dependencyPattern, replace, data)` on a single line:
a matched prefix is replaced by `replace`, the rest of the line and
non-matching lines are kept verbatim. -/
def rewriteLine (v : List Char) (l : List Char) : List Char :=
  match matchDep l with
  | none => l
  | some m => renderDep m.ident m.path v ++ m.rest

/-- Split a buffer at newline characters (the anchor points of `^` under
`re.MULTILINE`); the separators are consumed. -/
def splitOnNl : List Char → List (List Char)
  | [] => [[]]
  | c :: rest =>
    if c = '\n' then [] :: splitOnNl rest
    else
      match splitOnNl rest with
      | l :: ls => (c :: l) :: ls
      | [] => [[c]]

/-- Join lines back with newline separators (inverse of `splitOnNl`). -/
def joinNl : List (List Char) → List Char
  | [] => []
  | [l] => l
  | l :: l2 :: ls => l ++ '\n' :: joinNl (l2 :: ls)

/-- All captures of `versionPattern.findall(data)`, in document order. -/
def versionsOf (data : List Char) : List (List Char) :=
  (splitOnNl data).filterMap matchVer

/-- The expression `versionPattern.findall(data)[0]`: `none` models the
uncaught `IndexError` (a `LookupError`). -/
def extractVersion (data : List Char) : Option (List Char) :=
  (versionsOf data).head?

/-- The whole in-memory transform of the script: extract the canonical
version, then `re.sub` over the buffer.  `none` models the uncaught
`LookupError` raised before anything is written. -/
def transform (data : List Char) : Option (List Char) :=
  match extractVersion data with
  | none => none
  | some v => some (joinNl ((splitOnNl data).map (rewriteLine v)))

/-- One invocation of the script on a file holding `data`: the final file
contents paired with `true` on success; on failure the write step is never
reached and the file is unchanged, paired with `false`. -/
def runScript (data : List Char) : List Char × Bool :=
  match transform data with
  | none => (data, false)
  | some out => (out, true)

/-! Basic lemmas about `stripLit`, `takeWhile` and `dropWhile`. -/

theorem stripLit_append (lit r : List Char) : stripLit lit (lit ++ r) = some r := by
  induction lit with
  | nil => rfl
  | cons c cs ih => simp [stripLit, ih]

theorem stripLit_eq_some : ∀ (lit s r : List Char), stripLit lit s = some r → s = lit ++ r := by
  intro lit
  induction lit with
  | nil =>
    intro s r h
    simp only [stripLit] at h
    simp [Option.some_inj.mp h]
  | cons c cs ih =>
    intro s r h
    cases s with
    | nil => simp [stripLit] at h
    | cons d ds =>
      by_cases hc : c = d
      · subst hc
        simp only [stripLit, if_pos rfl] at h
        simp [ih ds r h]
      · simp [stripLit, hc] at h

theorem takeWhile_append_of_all (p : Char → Bool) :
    ∀ (a b : List Char), (∀ c ∈ a, p c = true) → (a ++ b).takeWhile p = a ++ b.takeWhile p := by
  intro a
  induction a with
  | nil => intro b _; rfl
  | cons x xs ih =>
    intro b h
    have hx : p x = true := h x (by simp)
    simp only [List.cons_append, List.takeWhile_cons, hx, if_true]
    rw [ih b (fun c hc => h c (by simp [hc]))]

theorem dropWhile_append_of_all (p : Char → Bool) :
    ∀ (a b : List Char), (∀ c ∈ a, p c = true) → (a ++ b).dropWhile p = b.dropWhile p := by
  intro a
  induction a with
  | nil => intro b _; rfl
  | cons x xs ih =>
    intro b h
    have hx : p x = true := h x (by simp)
    simp only [List.cons_append, List.dropWhile_cons, hx, if_true]
    exact ih b (fun c hc => h c (by simp [hc]))

theorem takeWhile_cons_false {p : Char → Bool} {c : Char} (h : p c = false) (r : List Char) :
    (c :: r).takeWhile p = [] := by
  simp [List.takeWhile_cons, h]

theorem dropWhile_cons_false {p : Char → Bool} {c : Char} (h : p c = false) (r : List Char) :
    (c :: r).dropWhile p = c :: r := by
  simp [List.dropWhile_cons, h]

/-! The head of each literal fails the character class that precedes it, so
maximal munch stops exactly at the literal. -/

theorem takeWhile_ident_mid1 (X : List Char) : (litDepMid1 ++ X).takeWhile isIdentChar = [] :=
  takeWhile_cons_false (by decide) _

theorem dropWhile_ident_mid1 (X : List Char) :
    (litDepMid1 ++ X).dropWhile isIdentChar = litDepMid1 ++ X :=
  dropWhile_cons_false (by decide) _

theorem takeWhile_path_mid2 (X : List Char) : (litDepMid2 ++ X).takeWhile isPathChar = [] :=
  takeWhile_cons_false (by decide) _

theorem dropWhile_path_mid2 (X : List Char) :
    (litDepMid2 ++ X).dropWhile isPathChar = litDepMid2 ++ X :=
  dropWhile_cons_false (by decide) _

theorem takeWhile_ver_end (X : List Char) : (litDepEnd ++ X).takeWhile isVerChar = [] :=
  takeWhile_cons_false (by decide) _

theorem dropWhile_ver_end (X : List Char) :
    (litDepEnd ++ X).dropWhile isVerChar = litDepEnd ++ X :=
  dropWhile_cons_false (by decide) _

/-! Round trip: the replacement produced by `replace` matches
`dependencyPattern` again, with the same groups. -/

theorem matchDep_renderDep (ident path ver rest : List Char)
    (hid : ∀ c ∈ ident, isIdentChar c = true)
    (hp : ∀ c ∈ path, isPathChar c = true)
    (hv : ∀ c ∈ ver, isVerChar c = true) :
    matchDep (renderDep ident path ver ++ rest) = some ⟨ident, path, ver, rest⟩ := by
  have hassoc : renderDep ident path ver ++ rest
      = ident ++ (litDepMid1 ++ (path ++ (litDepMid2 ++ (ver ++ (litDepEnd ++ rest))))) := by
    simp [renderDep, List.append_assoc]
  have ht1 : (renderDep ident path ver ++ rest).takeWhile isIdentChar = ident := by
    rw [hassoc, takeWhile_append_of_all isIdentChar _ _ hid, takeWhile_ident_mid1,
      List.append_nil]
  have hd1 : (renderDep ident path ver ++ rest).dropWhile isIdentChar
      = litDepMid1 ++ (path ++ (litDepMid2 ++ (ver ++ (litDepEnd ++ rest)))) := by
    rw [hassoc, dropWhile_append_of_all isIdentChar _ _ hid, dropWhile_ident_mid1]
  have ht2 : (path ++ (litDepMid2 ++ (ver ++ (litDepEnd ++ rest)))).takeWhile isPathChar
      = path := by
    rw [takeWhile_append_of_all isPathChar _ _ hp, takeWhile_path_mid2, List.append_nil]
  have hd2 : (path ++ (litDepMid2 ++ (ver ++ (litDepEnd ++ rest)))).dropWhile isPathChar
      = litDepMid2 ++ (ver ++ (litDepEnd ++ rest)) := by
    rw [dropWhile_append_of_all isPathChar _ _ hp, dropWhile_path_mid2]
  have ht3 : (ver ++ (litDepEnd ++ rest)).takeWhile isVerChar = ver := by
    rw [takeWhile_append_of_all isVerChar _ _ hv, takeWhile_ver_end, List.append_nil]
  have hd3 : (ver ++ (litDepEnd ++ rest)).dropWhile isVerChar = litDepEnd ++ rest := by
    rw [dropWhile_append_of_all isVerChar _ _ hv, dropWhile_ver_end]
  rw [matchDep, hd1, stripLit_append, Option.some_bind, hd2, stripLit_append,
    Option.some_bind, hd3, stripLit_append, Option.map_some', ht1, ht2, ht3]

/-! Decomposition: a successful `dependencyPattern` match determines the
shape of the line. -/

theorem matchDep_eq_some {l : List Char} {m : DepMatch} (h : matchDep l = some m) :
    l = renderDep m.ident m.path m.ver ++ m.rest
      ∧ (∀ c ∈ m.ident, isIdentChar c = true)
      ∧ (∀ c ∈ m.path, isPathChar c = true)
      ∧ (∀ c ∈ m.ver, isVerChar c = true) := by
  rw [matchDep] at h
  obtain ⟨r2, e1, h⟩ := Option.bind_eq_some.mp h
  obtain ⟨r4, e2, h⟩ := Option.bind_eq_some.mp h
  obtain ⟨rest, e3, h⟩ := Option.map_eq_some'.mp h
  have hl : l = l.takeWhile isIdentChar ++ (litDepMid1 ++ r2) := by
    rw [← stripLit_eq_some _ _ _ e1, List.takeWhile_append_dropWhile]
  have hr2 : r2 = r2.takeWhile isPathChar ++ (litDepMid2 ++ r4) := by
    rw [← stripLit_eq_some _ _ _ e2, List.takeWhile_append_dropWhile]
  have hr4 : r4 = r4.takeWhile isVerChar ++ (litDepEnd ++ rest) := by
    rw [← stripLit_eq_some _ _ _ e3, List.takeWhile_append_dropWhile]
  subst h
  refine ⟨?_, ?_, ?_, ?_⟩
  · rw [renderDep]
    conv =>
      lhs
      rw [hl, hr2, hr4]
    simp [List.append_assoc]
  · intro c hc
    exact List.mem_takeWhile_imp hc
  · intro c hc
    exact List.mem_takeWhile_imp hc
  · intro c hc
    exact List.mem_takeWhile_imp hc

/-! Lemmas about `matchVer` and its interplay with `matchDep`. -/

theorem matchVer_eq_some {l v : List Char} (h : matchVer l = some v) :
    (∃ t, l = litVer ++ (v ++ '"' :: t)) ∧ ∀ c ∈ v, isVerChar c = true := by
  rw [matchVer] at h
  obtain ⟨r, e1, h⟩ := Option.bind_eq_some.mp h
  split at h
  next t heq =>
    have hv : r.takeWhile isVerChar = v := Option.some_inj.mp h
    have hl : l = litVer ++ r := stripLit_eq_some _ _ _ e1
    have hr : r = r.takeWhile isVerChar ++ ('"' :: t) := by
      conv =>
        lhs
        rw [← List.takeWhile_append_dropWhile (p := isVerChar) (l := r), heq]
    refine ⟨⟨t, ?_⟩, ?_⟩
    · rw [hl, hr, hv]
    · intro c hc
      rw [← hv] at hc
      exact List.mem_takeWhile_imp hc
  next =>
    exact absurd h (by simp)

theorem stripLit_mid1_quote (X : List Char) :
    stripLit litDepMid1 (' ' :: '=' :: ' ' :: '"' :: X) = none := rfl

/-- A line matched by `versionPattern` is never matched by
`dependencyPattern`: after the identifier run `version`, the dependency
pattern requires ` = \x7b` where the version line has ` = "`. -/
theorem matchDep_of_matchVer_some {l v : List Char} (h : matchVer l = some v) :
    matchDep l = none := by
  obtain ⟨⟨t, hl⟩, _⟩ := matchVer_eq_some h
  have hl2 : l = ['v', 'e', 'r', 's', 'i', 'o', 'n']
      ++ (' ' :: '=' :: ' ' :: '"' :: (v ++ '"' :: t)) := by
    rw [hl]
    rfl
  have hdrop : l.dropWhile isIdentChar = ' ' :: '=' :: ' ' :: '"' :: (v ++ '"' :: t) := by
    rw [hl2, dropWhile_append_of_all _ _ _ (by decide), dropWhile_cons_false (by decide)]
  rw [matchDep, hdrop, stripLit_mid1_quote, Option.none_bind]

/-! Equations for `rewriteLine`. -/

theorem rewriteLine_of_none {v l : List Char} (h : matchDep l = none) :
    rewriteLine v l = l := by
  simp only [rewriteLine, h]

theorem rewriteLine_of_some {v l : List Char} {m : DepMatch} (h : matchDep l = some m) :
    rewriteLine v l = renderDep m.ident m.path v ++ m.rest := by
  simp only [rewriteLine, h]

theorem rewriteLine_idem {v l : List Char} (hv : ∀ c ∈ v, isVerChar c = true) :
    rewriteLine v (rewriteLine v l) = rewriteLine v l := by
  cases hm : matchDep l with
  | none => rw [rewriteLine_of_none hm, rewriteLine_of_none hm]
  | some m =>
    obtain ⟨hl, hid, hp, hver⟩ := matchDep_eq_some hm
    rw [rewriteLine_of_some hm, rewriteLine_of_some (matchDep_renderDep _ _ _ _ hid hp hv)]

theorem matchVer_rewriteLine {v : List Char} (hv : ∀ c ∈ v, isVerChar c = true)
    (l : List Char) : matchVer (rewriteLine v l) = matchVer l := by
  cases hm : matchDep l with
  | none => rw [rewriteLine_of_none hm]
  | some m =>
    obtain ⟨hl, hid, hp, hver⟩ := matchDep_eq_some hm
    rw [rewriteLine_of_some hm]
    have hL : matchVer l = none := by
      cases hv2 : matchVer l with
      | none => rfl
      | some w =>
        rw [matchDep_of_matchVer_some hv2] at hm
        exact absurd hm (by simp)
    have hR : matchVer (renderDep m.ident m.path v ++ m.rest) = none := by
      cases hv2 : matchVer (renderDep m.ident m.path v ++ m.rest) with
      | none => rfl
      | some w =>
        have hnone := matchDep_of_matchVer_some hv2
        rw [matchDep_renderDep _ _ _ _ hid hp hv] at hnone
        exact absurd hnone (by simp)
    rw [hR, hL]

/-! Lemmas about `splitOnNl` and `joinNl`. -/

theorem splitOnNl_cons_nl (rest : List Char) :
    splitOnNl ('\n' :: rest) = [] :: splitOnNl rest := by
  rw [splitOnNl, if_pos rfl]

theorem splitOnNl_cons_of_ne {c : Char} (hc : ¬ c = '\n') {rest h : List Char}
    {t : List (List Char)} (he : splitOnNl rest = h :: t) :
    splitOnNl (c :: rest) = (c :: h) :: t := by
  rw [splitOnNl, if_neg hc, he]

theorem splitOnNl_ne_nil (s : List Char) : splitOnNl s ≠ [] := by
  cases s with
  | nil => simp [splitOnNl]
  | cons c rest =>
    rw [splitOnNl]
    split
    · simp
    · split <;> simp

theorem splitOnNl_exists_cons (s : List Char) :
    ∃ h t, splitOnNl s = h :: t := by
  cases he : splitOnNl s with
  | nil => exact absurd he (splitOnNl_ne_nil s)
  | cons h t => exact ⟨h, t, rfl⟩

theorem splitOnNl_nlFree : ∀ (s : List Char), ∀ l ∈ splitOnNl s, '\n' ∉ l := by
  intro s
  induction s with
  | nil =>
    intro l hl
    simp [splitOnNl] at hl
    simp [hl]
  | cons c rest ih =>
    intro l hl
    by_cases hc : c = '\n'
    · subst hc
      rw [splitOnNl_cons_nl] at hl
      rcases List.mem_cons.mp hl with h1 | h2
      · simp [h1]
      · exact ih l h2
    · obtain ⟨h, t, he⟩ := splitOnNl_exists_cons rest
      rw [splitOnNl_cons_of_ne hc he] at hl
      rcases List.mem_cons.mp hl with h1 | h2
      · subst h1
        intro hmem
        rcases List.mem_cons.mp hmem with h3 | h4
        · exact hc h3.symm
        · exact ih h (he ▸ List.mem_cons_self h t) h4
      · exact ih l (he ▸ List.mem_cons_of_mem h h2)

theorem joinNl_splitOnNl : ∀ (s : List Char), joinNl (splitOnNl s) = s := by
  intro s
  induction s with
  | nil => rfl
  | cons c rest ih =>
    obtain ⟨h, t, he⟩ := splitOnNl_exists_cons rest
    by_cases hc : c = '\n'
    · subst hc
      rw [splitOnNl_cons_nl, he, joinNl, List.nil_append, ← he, ih]
    · rw [splitOnNl_cons_of_ne hc he]
      cases t with
      | nil =>
        rw [he] at ih
        rw [joinNl] at ih
        rw [joinNl, ih]
      | cons t1 ts =>
        rw [he] at ih
        rw [joinNl] at ih
        rw [joinNl, List.cons_append, ih]

theorem splitOnNl_of_nlFree : ∀ (l : List Char), '\n' ∉ l → splitOnNl l = [l] := by
  intro l
  induction l with
  | nil => intro _; rfl
  | cons c r ih =>
    intro h
    have hc : ¬ c = '\n' := fun he => h (he ▸ List.mem_cons_self c r)
    exact splitOnNl_cons_of_ne hc (ih (fun hm => h (List.mem_cons_of_mem c hm)))

theorem splitOnNl_nlFree_append : ∀ (l : List Char), '\n' ∉ l →
    ∀ (s : List Char), splitOnNl (l ++ '\n' :: s) = l :: splitOnNl s := by
  intro l
  induction l with
  | nil =>
    intro _ s
    exact splitOnNl_cons_nl s
  | cons c r ih =>
    intro h s
    have hc : ¬ c = '\n' := fun he => h (he ▸ List.mem_cons_self c r)
    exact splitOnNl_cons_of_ne hc (ih (fun hm => h (List.mem_cons_of_mem c hm)) s)

theorem splitOnNl_joinNl : ∀ (ls : List (List Char)), (∀ l ∈ ls, '\n' ∉ l) → ls ≠ [] →
    splitOnNl (joinNl ls) = ls := by
  intro ls
  induction ls with
  | nil => intro _ hne; exact absurd rfl hne
  | cons l ls2 ih =>
    intro h _
    cases ls2 with
    | nil =>
      rw [joinNl]
      exact splitOnNl_of_nlFree l (h l (List.mem_cons_self l []))
    | cons l2 ls3 =>
      rw [joinNl, splitOnNl_nlFree_append l (h l (List.mem_cons_self l _)) _,
        ih (fun x hx => h x (List.mem_cons_of_mem l hx)) (by simp)]

/-! Transform-level lemmas. -/

theorem filterMap_congr_mem {α β : Type} {f g : α → Option β} :
    ∀ (l : List α), (∀ a ∈ l, f a = g a) → l.filterMap f = l.filterMap g := by
  intro l
  induction l with
  | nil => intro _; rfl
  | cons x xs ih =>
    intro h
    rw [List.filterMap_cons, List.filterMap_cons, h x (List.mem_cons_self x xs),
      ih (fun a ha => h a (List.mem_cons_of_mem x ha))]

theorem extractVersion_verChars {data v : List Char} (h : extractVersion data = some v) :
    ∀ c ∈ v, isVerChar c = true := by
  rw [extractVersion] at h
  have hmem : v ∈ versionsOf data := by
    cases hvo : versionsOf data with
    | nil => rw [hvo] at h; simp at h
    | cons a t =>
      rw [hvo] at h
      simp only [List.head?_cons, Option.some_inj] at h
      rw [← h]
      exact List.mem_cons_self a t
  rw [versionsOf] at hmem
  obtain ⟨l, _, hml⟩ := List.mem_filterMap.mp hmem
  exact (matchVer_eq_some hml).2

theorem transform_eq_some {data out : List Char} (h : transform data = some out) :
    ∃ v, extractVersion data = some v
      ∧ out = joinNl ((splitOnNl data).map (rewriteLine v)) := by
  rw [transform] at h
  cases he : extractVersion data with
  | none => rw [he] at h; exact absurd h (by simp)
  | some v =>
    rw [he] at h
    exact ⟨v, rfl, (Option.some_inj.mp h).symm⟩

theorem transform_of_extract {data v : List Char} (he : extractVersion data = some v) :
    transform data = some (joinNl ((splitOnNl data).map (rewriteLine v))) := by
  rw [transform, he]

theorem splitOnNl_map_rewrite {data v : List Char} (hv : ∀ c ∈ v, isVerChar c = true) :
    splitOnNl (joinNl ((splitOnNl data).map (rewriteLine v)))
      = (splitOnNl data).map (rewriteLine v) := by
  apply splitOnNl_joinNl
  · intro l hl
    obtain ⟨l0, hl0, hrw⟩ := List.mem_map.mp hl
    rw [← hrw]
    -- a rewritten line stays newline-free
    cases hm : matchDep l0 with
    | none =>
      rw [rewriteLine_of_none hm]
      exact splitOnNl_nlFree _ _ hl0
    | some m =>
      obtain ⟨hl0eq, hid, hp, hver⟩ := matchDep_eq_some hm
      have hfree : '\n' ∉ l0 := splitOnNl_nlFree _ _ hl0
      rw [rewriteLine_of_some hm]
      rw [hl0eq, renderDep] at hfree
      simp only [List.mem_append, not_or] at hfree
      obtain ⟨⟨⟨⟨⟨⟨hni, hn1⟩, hnp⟩, hn2⟩, hnv⟩, hne⟩, hnr⟩ := hfree
      simp only [renderDep, List.mem_append, not_or]
      refine ⟨⟨⟨⟨⟨⟨hni, hn1⟩, hnp⟩, hn2⟩, ?_⟩, hne⟩, hnr⟩
      intro hnl
      have := hv '\n' hnl
      simp [isVerChar, isIdentChar] at this
  · simp only [ne_eq, List.map_eq_nil_iff]
    exact splitOnNl_ne_nil data

theorem versionsOf_map_rewrite {data v : List Char} (hv : ∀ c ∈ v, isVerChar c = true) :
    ((splitOnNl data).map (rewriteLine v)).filterMap matchVer
      = (splitOnNl data).filterMap matchVer := by
  rw [List.filterMap_map]
  exact filterMap_congr_mem _ (fun l _ => matchVer_rewriteLine hv l)

theorem versionsOf_transform {data out : List Char} (h : transform data = some out) :
    versionsOf out = versionsOf data := by
  obtain ⟨v, he, hout⟩ := transform_eq_some h
  have hv := extractVersion_verChars he
  rw [versionsOf, hout, splitOnNl_map_rewrite hv, versionsOf_map_rewrite hv, versionsOf]

theorem head_filterMap_of_first {α β : Type} (f : α → Option β) :
    ∀ (xs : List α) (i : Nat) (a : α) (b : β),
      xs[i]? = some a → f a = some b →
      (∀ j, j < i → ∀ a2, xs[j]? = some a2 → f a2 = none) →
      (xs.filterMap f).head? = some b := by
  intro xs
  induction xs with
  | nil =>
    intro i a b ha _ _
    simp at ha
  | cons x t ih =>
    intro i a b ha hb hfirst
    cases i with
    | zero =>
      rw [List.getElem?_cons_zero] at ha
      have hax : x = a := Option.some_inj.mp ha
      rw [List.filterMap_cons, hax, hb]
      rfl
    | succ i2 =>
      have hx : f x = none :=
        hfirst 0 (Nat.succ_pos i2) x List.getElem?_cons_zero
      rw [List.filterMap_cons, hx]
      rw [List.getElem?_cons_succ] at ha
      exact ih i2 a b ha hb (fun j hj a2 ha2 =>
        hfirst (j + 1) (Nat.succ_lt_succ hj) a2 (by rw [List.getElem?_cons_succ]; exact ha2))

/-! The claims. -/

/-- C1: for every matched dependency-declaration line, the transform replaces
it with a line having the same identifier and the same path fields as the
input line, and with the version field set to the canonical version string
extracted from the first version-declaration line; the old version value is
discarded. -/
theorem dep_rewrite_preserves_ident_path (data out l v : List Char) (m : DepMatch) (i : Nat)
    (ht : transform data = some out) (hv : extractVersion data = some v)
    (hl : (splitOnNl data)[i]? = some l) (hm : matchDep l = some m) :
    (splitOnNl out)[i]? = some (renderDep m.ident m.path v ++ m.rest)
      ∧ matchDep (renderDep m.ident m.path v ++ m.rest)
        = some ⟨m.ident, m.path, v, m.rest⟩ := by
  obtain ⟨v2, hv2, hout⟩ := transform_eq_some ht
  rw [hv] at hv2
  have hvv : v = v2 := Option.some_inj.mp hv2
  subst hvv
  have hvc := extractVersion_verChars hv
  obtain ⟨_, hid, hp, _⟩ := matchDep_eq_some hm
  constructor
  · rw [hout, splitOnNl_map_rewrite hvc, List.getElem?_map, hl, Option.map_some',
      rewriteLine_of_some hm]
  · exact matchDep_renderDep _ _ _ _ hid hp hvc

/-- C2: the transform is idempotent: whenever it succeeds, applying it to its
own output succeeds and returns that output unchanged. -/
theorem transform_idempotent (data out : List Char) (ht : transform data = some out) :
    transform out = some out := by
  obtain ⟨v, he, hout⟩ := transform_eq_some ht
  have hv := extractVersion_verChars he
  have hsplit : splitOnNl out = (splitOnNl data).map (rewriteLine v) := by
    rw [hout]
    exact splitOnNl_map_rewrite hv
  have hev : extractVersion out = some v := by
    rw [extractVersion, versionsOf, hsplit, versionsOf_map_rewrite hv]
    rw [extractVersion, versionsOf] at he
    exact he
  rw [transform_of_extract hev, hsplit]
  have hmapidem : ((splitOnNl data).map (rewriteLine v)).map (rewriteLine v)
      = (splitOnNl data).map (rewriteLine v) := by
    rw [List.map_map]
    exact List.map_congr_left (fun l _ => rewriteLine_idem hv)
  rw [hmapidem, ← hout]

/-- C3: the canonical version string used for rewriting equals the captured
value of the first version-declaration line in document order; in particular
for inputs with exactly one such line it equals that line's value. -/
theorem canonical_version_first_match (data l v : List Char) (i : Nat)
    (hl : (splitOnNl data)[i]? = some l) (hv : matchVer l = some v)
    (hfirst : ∀ j, j < i → ∀ l2, (splitOnNl data)[j]? = some l2 → matchVer l2 = none) :
    extractVersion data = some v
      ∧ transform data = some (joinNl ((splitOnNl data).map (rewriteLine v))) := by
  have he : extractVersion data = some v := by
    rw [extractVersion, versionsOf]
    exact head_filterMap_of_first matchVer _ i l v hl hv hfirst
  exact ⟨he, transform_of_extract he⟩

/-- C4: every input line that does not match the dependency-declaration
pattern appears unchanged, at the same position, in the output. -/
theorem non_matching_line_untouched (data out l : List Char) (i : Nat)
    (ht : transform data = some out)
    (hl : (splitOnNl data)[i]? = some l) (hm : matchDep l = none) :
    (splitOnNl out)[i]? = some l := by
  obtain ⟨v, he, hout⟩ := transform_eq_some ht
  have hv := extractVersion_verChars he
  rw [hout, splitOnNl_map_rewrite hv, List.getElem?_map, hl, Option.map_some',
    rewriteLine_of_none hm]

/-- C5: when no line matches `versionPattern`, the extraction raises a
`LookupError` (modelled by `none`) and the write step is never reached: the
file contents are unchanged and the run reports failure. -/
theorem missing_version_no_write (data : List Char)
    (h : ∀ l ∈ splitOnNl data, matchVer l = none) :
    transform data = none ∧ runScript data = (data, false) := by
  have hnil : (splitOnNl data).filterMap matchVer = [] :=
    List.filterMap_eq_nil_iff.mpr h
  have he : extractVersion data = none := by
    rw [extractVersion, versionsOf, hnil]
    rfl
  have ht : transform data = none := by
    rw [transform, he]
  exact ⟨ht, by rw [runScript, ht]⟩

/-- C6: on an input with at least one version-declaration line but no line
matching the dependency-declaration pattern, the transform is the
identity. -/
theorem no_dep_lines_noop (data out : List Char) (ht : transform data = some out)
    (h : ∀ l ∈ splitOnNl data, matchDep l = none) : out = data := by
  obtain ⟨v, _, hout⟩ := transform_eq_some ht
  have hmap : (splitOnNl data).map (rewriteLine v) = (splitOnNl data).map id :=
    List.map_congr_left (fun l hl => rewriteLine_of_none (h l hl))
  rw [hout, hmap, List.map_id, joinNl_splitOnNl]

/-- C7: the transform is deterministic: two runs on identical input text
produce identical results (the output depends only on the file contents). -/
theorem runScript_deterministic (d1 d2 : List Char) (h : d1 = d2) :
    runScript d1 = runScript d2 := by
  rw [h]

/-- C8: a line whose prefix matches the dependency-declaration pattern but
which has additional characters after the closing brace decomposes into the
matched prefix plus the trailing characters, and the rewrite replaces only
the matched prefix, preserving the trailing characters byte-for-byte. -/
theorem trailing_chars_preserved (l v : List Char) (m : DepMatch)
    (h : matchDep l = some m) :
    l = renderDep m.ident m.path m.ver ++ m.rest
      ∧ rewriteLine v l = renderDep m.ident m.path v ++ m.rest :=
  ⟨(matchDep_eq_some h).1, rewriteLine_of_some h⟩

/-- C9: the dependency rewrite never creates, destroys, or alters any
version-declaration line: on success, the version-declaration lines of the
output (and their captured values, in order) equal those of the input, so the
canonical version extracted from the output equals the one extracted from the
input. -/
theorem version_lines_invariant (data out : List Char)
    (ht : transform data = some out) :
    versionsOf out = versionsOf data
      ∧ extractVersion out = extractVersion data
      ∧ (splitOnNl out).filter (fun l => (matchVer l).isSome)
        = (splitOnNl data).filter (fun l => (matchVer l).isSome) := by
  have h1 := versionsOf_transform ht
  refine ⟨h1, ?_, ?_⟩
  · rw [extractVersion, extractVersion, h1]
  · obtain ⟨v, he, hout⟩ := transform_eq_some ht
    have hv := extractVersion_verChars he
    rw [hout, splitOnNl_map_rewrite hv, List.filter_map]
    have hpf : (splitOnNl data).filter ((fun l => (matchVer l).isSome) ∘ rewriteLine v)
        = (splitOnNl data).filter (fun l => (matchVer l).isSome) :=
      List.filter_congr (fun l _ => by
        simp only [Function.comp_apply, matchVer_rewriteLine hv l])
    rw [hpf]
    have hid : ∀ l ∈ (splitOnNl data).filter (fun l => (matchVer l).isSome),
        rewriteLine v l = id l := by
      intro l hl
      have hp := List.of_mem_filter hl
      obtain ⟨w, hw⟩ := Option.isSome_iff_exists.mp hp
      exact rewriteLine_of_none (matchDep_of_matchVer_some hw)
    rw [List.map_congr_left hid, List.map_id]

/-- C10: the empty string is an accepted version value: when the first
version-declaration line is `version = ""`, the transform succeeds with the
empty canonical version and sets the version field of every matched
dependency line to the empty string. -/
theorem empty_version_accepted (data l : List Char) (m : DepMatch) (i : Nat)
    (hl : (splitOnNl data)[i]? = some (litVer ++ ['"']))
    (hfirst : ∀ j, j < i → ∀ l2, (splitOnNl data)[j]? = some l2 → matchVer l2 = none)
    (hm : matchDep l = some m) :
    extractVersion data = some []
      ∧ transform data = some (joinNl ((splitOnNl data).map (rewriteLine [])))
      ∧ rewriteLine [] l = renderDep m.ident m.path [] ++ m.rest
      ∧ matchDep (rewriteLine [] l) = some ⟨m.ident, m.path, [], m.rest⟩ := by
  have hmv : matchVer (litVer ++ ['"']) = some [] := by decide
  have he : extractVersion data = some [] := by
    rw [extractVersion, versionsOf]
    exact head_filterMap_of_first matchVer _ i _ [] hl hmv hfirst
  obtain ⟨_, hid, hp, _⟩ := matchDep_eq_some hm
  refine ⟨he, transform_of_extract he, rewriteLine_of_some hm, ?_⟩
  rw [rewriteLine_of_some hm]
  exact matchDep_renderDep _ _ _ _ hid hp (by simp)

/-! Concrete witnesses instantiating each claim on a small manifest. -/

theorem dep_rewrite_preserves_ident_path_witness :
    (splitOnNl ("version = \"2\"\nf = \x7b path = \"p\", version = \"2\" \x7d".toList))[1]?
        = some (renderDep ['f'] ['p'] ['2'] ++ [])
      ∧ matchDep (renderDep ['f'] ['p'] ['2'] ++ [])
        = some ⟨['f'], ['p'], ['2'], []⟩ :=
  dep_rewrite_preserves_ident_path
    ("version = \"2\"\nf = \x7b path = \"p\", version = \"1\" \x7d".toList)
    ("version = \"2\"\nf = \x7b path = \"p\", version = \"2\" \x7d".toList)
    ("f = \x7b path = \"p\", version = \"1\" \x7d".toList)
    ['2'] ⟨['f'], ['p'], ['1'], []⟩ 1 (by rfl) (by rfl) (by rfl) (by rfl)

theorem transform_idempotent_witness :
    transform ("version = \"2\"\nf = \x7b path = \"p\", version = \"2\" \x7d".toList)
      = some ("version = \"2\"\nf = \x7b path = \"p\", version = \"2\" \x7d".toList) :=
  transform_idempotent
    ("version = \"2\"\nf = \x7b path = \"p\", version = \"1\" \x7d".toList)
    ("version = \"2\"\nf = \x7b path = \"p\", version = \"2\" \x7d".toList)
    (by rfl)

theorem canonical_version_first_match_witness :
    extractVersion ("x\nversion = \"7\"".toList) = some ['7']
      ∧ transform ("x\nversion = \"7\"".toList)
        = some (joinNl ((splitOnNl ("x\nversion = \"7\"".toList)).map (rewriteLine ['7']))) :=
  canonical_version_first_match ("x\nversion = \"7\"".toList)
    ("version = \"7\"".toList) ['7'] 1 (by rfl) (by rfl)
    (by
      intro j hj l2 h2
      have hj0 : j = 0 := Nat.lt_one_iff.mp hj
      subst hj0
      have h3 : (splitOnNl ("x\nversion = \"7\"".toList))[0]? = some ['x'] := rfl
      rw [h3] at h2
      rw [← Option.some_inj.mp h2]
      rfl)

theorem non_matching_line_untouched_witness :
    (splitOnNl ("version = \"2\"\nf = \x7b path = \"p\", version = \"2\" \x7d".toList))[0]?
      = some ("version = \"2\"".toList) :=
  non_matching_line_untouched
    ("version = \"2\"\nf = \x7b path = \"p\", version = \"1\" \x7d".toList)
    ("version = \"2\"\nf = \x7b path = \"p\", version = \"2\" \x7d".toList)
    ("version = \"2\"".toList) 0 (by rfl) (by rfl) (by rfl)

theorem missing_version_no_write_witness :
    transform ("hello\nworld".toList) = none
      ∧ runScript ("hello\nworld".toList) = ("hello\nworld".toList, false) :=
  missing_version_no_write ("hello\nworld".toList) (by decide)

theorem no_dep_lines_noop_witness :
    "version = \"3\"\nplain".toList = "version = \"3\"\nplain".toList :=
  no_dep_lines_noop ("version = \"3\"\nplain".toList)
    ("version = \"3\"\nplain".toList) (by rfl) (by decide)

theorem runScript_deterministic_witness :
    runScript ("version = \"2\"".toList) = runScript ("version = \"2\"".toList) :=
  runScript_deterministic ("version = \"2\"".toList) ("version = \"2\"".toList) rfl

theorem trailing_chars_preserved_witness :
    "f = \x7b path = \"p\", version = \"1\" \x7d # c".toList
        = renderDep ['f'] ['p'] ['1'] ++ [' ', '#', ' ', 'c']
      ∧ rewriteLine ['9'] ("f = \x7b path = \"p\", version = \"1\" \x7d # c".toList)
        = renderDep ['f'] ['p'] ['9'] ++ [' ', '#', ' ', 'c'] :=
  trailing_chars_preserved ("f = \x7b path = \"p\", version = \"1\" \x7d # c".toList)
    ['9'] ⟨['f'], ['p'], ['1'], [' ', '#', ' ', 'c']⟩ (by rfl)

theorem version_lines_invariant_witness :
    versionsOf ("version = \"2\"\nf = \x7b path = \"p\", version = \"2\" \x7d".toList)
        = versionsOf ("version = \"2\"\nf = \x7b path = \"p\", version = \"1\" \x7d".toList)
      ∧ extractVersion ("version = \"2\"\nf = \x7b path = \"p\", version = \"2\" \x7d".toList)
        = extractVersion ("version = \"2\"\nf = \x7b path = \"p\", version = \"1\" \x7d".toList)
      ∧ (splitOnNl ("version = \"2\"\nf = \x7b path = \"p\", version = \"2\" \x7d".toList)).filter
          (fun l => (matchVer l).isSome)
        = (splitOnNl ("version = \"2\"\nf = \x7b path = \"p\", version = \"1\" \x7d".toList)).filter
          (fun l => (matchVer l).isSome) :=
  version_lines_invariant
    ("version = \"2\"\nf = \x7b path = \"p\", version = \"1\" \x7d".toList)
    ("version = \"2\"\nf = \x7b path = \"p\", version = \"2\" \x7d".toList)
    (by rfl)

theorem empty_version_accepted_witness :
    extractVersion ("version = \"\"\nf = \x7b path = \"p\", version = \"1\" \x7d".toList)
        = some []
      ∧ transform ("version = \"\"\nf = \x7b path = \"p\", version = \"1\" \x7d".toList)
        = some (joinNl ((splitOnNl
            ("version = \"\"\nf = \x7b path = \"p\", version = \"1\" \x7d".toList)).map
            (rewriteLine [])))
      ∧ rewriteLine [] ("f = \x7b path = \"p\", version = \"1\" \x7d".toList)
        = renderDep ['f'] ['p'] [] ++ []
      ∧ matchDep (rewriteLine [] ("f = \x7b path = \"p\", version = \"1\" \x7d".toList))
        = some ⟨['f'], ['p'], [], []⟩ :=
  empty_version_accepted
    ("version = \"\"\nf = \x7b path = \"p\", version = \"1\" \x7d".toList)
    ("f = \x7b path = \"p\", version = \"1\" \x7d".toList)
    ⟨['f'], ['p'], ['1'], []⟩ 0 (by rfl)
    (fun j hj _ _ => absurd hj (Nat.not_lt_zero j))
    (by rfl)
